import Mathlib

/-!
Shallow embedding of the node_acl policy engine (src/lib/acl.ts).

Strings are modelled as lists of characters (`Str`), so that the bucket
naming function and its inverse admit direct structural proofs.  The
pluggable key/value backend (imported by acl.ts from "./backend", not
present under src/) is modelled from the spec, section 6, as a mapping
from bucket name and key to a set of values, represented as a list whose
membership carries the set semantics.  Recursive hierarchy walks in the
source have no cycle guard; they are embedded with an explicit fuel
argument counting the recursive calls still allowed, returning `none`
when the fuel is exhausted (on acyclic hierarchies a sufficient fuel
always exists).
-/

namespace NodeAcl

/-- Character-list strings: identifiers, bucket names, permissions. -/
abbrev Str := List Char

/-- Coerce a string literal into the `Str` representation. -/
def str (s : String) : Str := s.data

/-- Modelled from the spec: the backend state, a set-valued key/value
store grouped into named buckets (spec section 6, "Backend Contract").
`st bucket key` is the stored set for `key` inside `bucket`. -/
abbrev Store := Str → Str → List Str

/-- Modelled from the spec: backend `get(bucket, key)`, a point read of
the stored set. -/
def Store.get (st : Store) (bucket key : Str) : List Str := st bucket key

/-- The store with every set empty (fresh backend). -/
def emptyStore : Store := fun _ _ => []

/-- Modelled from the spec: backend `add(transaction, bucket, key, values)`:
adds the values to the stored set (set semantics: an already present
value is not duplicated). -/
def bAdd (st : Store) (bucket key : Str) (vals : List Str) : Store :=
  fun b k =>
    if b = bucket ∧ k = key then
      vals.foldl (fun acc v => if v ∈ acc then acc else acc ++ [v]) (st b k)
    else st b k

/-- Modelled from the spec: backend `remove(transaction, bucket, key, values)`:
removes the values from the stored set. -/
def bRemove (st : Store) (bucket key : Str) (vals : List Str) : Store :=
  fun b k =>
    if b = bucket ∧ k = key then (st b k).filter (fun v => decide (v ∉ vals))
    else st b k

/-- Modelled from the spec: backend `del(transaction, bucket, key)`:
deletes the whole key from the bucket (the stored set becomes empty). -/
def bDel (st : Store) (bucket key : Str) : Store :=
  fun b k => if b = bucket ∧ k = key then [] else st b k

/-- Modelled from the spec: backend `union(bucket, keys)`: the union of
the stored sets of the given keys in one bucket (membership semantics;
the list may carry duplicates, which a set has no way to observe). -/
def bUnion (st : Store) (bucket : Str) (keys : List Str) : List Str :=
  (keys.map (fun k => st bucket k)).flatten

/-- Modelled from the spec: optional backend `unions(buckets, keys)`:
for each bucket, the union of the stored sets of the keys in that
bucket, returned as a bucket-to-set mapping. -/
def unionsB (st : Store) (buckets : List Str) (keys : List Str) : List (Str × List Str) :=
  buckets.map (fun b => (b, bUnion st b keys))

/-- Default bucket names from the `Acl` constructor options. -/
def usersB : Str := str "users"

/-- Bucket of user sets per role (reverse user mapping). -/
def rolesB : Str := str "roles"

/-- Bucket of parent-role sets per role. -/
def parentsB : Str := str "parents"

/-- Bucket of resource sets per role. -/
def resourcesB : Str := str "resources"

/-- Bucket of global metadata sets (`meta.users`, `meta.roles`). -/
def metaB : Str := str "meta"

/-- Helper `allowsBucket(resource)` from acl.ts: the permissions bucket
name for a resource, the fixed textual prefix `allows_` plus the
resource name. -/
def allowsBucket (resource : Str) : Str := str "allows_" ++ resource

/-- Helper `keyFromAllowsBucket(str)` from acl.ts: strips a leading
`allows_` from a bucket name (the anchored one-shot regex replace). -/
def keyFromAllowsBucket (s : Str) : Str :=
  if s.take 7 = str "allows_" then s.drop 7 else s

/-- Ordered duplicate-free union of two lists, lodash `_.union` up to
membership (elements of the second list already in the first are
dropped). -/
def listUnion (a b : List Str) : List Str :=
  a ++ b.filter (fun x => decide (x ∉ a))

/-- `addUserRoles(userId, roles)` from acl.ts: registers the user in
`meta.users`, adds the roles to `users[userId]`, and mirrors the user
into `roles[role]` for each role. -/
def addUserRoles (st : Store) (userId : Str) (roles : List Str) : Store :=
  let st1 := bAdd st metaB (str "users") [userId]
  let st2 := bAdd st1 usersB userId roles
  roles.foldl (fun s role => bAdd s rolesB role [userId]) st2

/-- `userRoles(userId)` from acl.ts: the roles directly assigned to a
user. -/
def userRoles (st : Store) (userId : Str) : List Str :=
  Store.get st usersB userId

/-- `hasRole(userId, rolename)` from acl.ts: whether the role is among
the user's directly assigned roles (`roles.includes(rolename)`). -/
def hasRole (st : Store) (userId rolename : Str) : Bool :=
  decide (rolename ∈ userRoles st userId)

/-- `addRoleParents(role, parents)` from acl.ts: registers the role in
`meta.roles` and adds the parents to `parents[role]`. -/
def addRoleParents (st : Store) (role : Str) (parents : List Str) : Store :=
  let st1 := bAdd st metaB (str "roles") [role]
  bAdd st1 parentsB role parents

/-- `removeRoleParents(role, parents)` from acl.ts: with parents given,
removes them from `parents[role]`; with the argument omitted (`none`),
deletes the whole `parents[role]` entry. -/
def removeRoleParents (st : Store) (role : Str) (parents : Option (List Str)) : Store :=
  match parents with
  | some ps => bRemove st parentsB role ps
  | none => bDel st parentsB role

/-- `removeRole(role)` from acl.ts: reads `resources[role]`, then in one
batch deletes the role's entry in every corresponding allows bucket,
deletes `resources[role]`, `parents[role]` and `roles[role]`, and
removes the role from `meta.roles`.  The `users` bucket is deliberately
left untouched. -/
def removeRole (st : Store) (role : Str) : Store :=
  let resources := Store.get st resourcesB role
  let st1 := resources.foldl (fun s resource => bDel s (allowsBucket resource) role) st
  let st2 := bDel st1 resourcesB role
  let st3 := bDel st2 parentsB role
  let st4 := bDel st3 rolesB role
  bRemove st4 metaB (str "roles") [role]

/-- `allow(roles, resources, permissions)` from acl.ts (the three
argument form, inputs normalised to arrays): registers the roles in
`meta.roles`, adds the permissions to `allows[resource][role]` for every
(resource, role) pair, and records the resources in `resources[role]`
for every role. -/
def allow (st : Store) (roles resources permissions : List Str) : Store :=
  let st1 := bAdd st metaB (str "roles") roles
  let st2 := resources.foldl (fun s resource =>
    roles.foldl (fun s2 role => bAdd s2 (allowsBucket resource) role permissions) s) st1
  roles.foldl (fun s role => bAdd s resourcesB role resources) st2

/-- Phase 1 of `removePermissions(role, resources, permissions)` from
acl.ts: per resource, with permissions given, removes them from the
allows bucket; with permissions absent, deletes the whole allows entry
and removes the resource from `resources[role]`. -/
def removePermissionsPhase1 (st : Store) (role : Str) (resources : List Str)
    (permissions : Option (List Str)) : Store :=
  resources.foldl (fun s resource =>
    match permissions with
    | some perms => bRemove s (allowsBucket resource) role perms
    | none =>
        bRemove (bDel s (allowsBucket resource) role) resourcesB role [resource]) st

/-- `removePermissions(role, resources, permissions)` from acl.ts: phase
1 above in one batch, then a separate batch that re-queries each
`allows[resource][role]` set (against the state after phase 1) and, when
it is empty, removes the resource from `resources[role]`. -/
def removePermissions (st : Store) (role : Str) (resources : List Str)
    (permissions : Option (List Str)) : Store :=
  let st1 := removePermissionsPhase1 st role resources permissions
  resources.foldl (fun s resource =>
    if (Store.get st1 (allowsBucket resource) role).isEmpty then
      bRemove s resourcesB role [resource]
    else s) st1

/-- `removeAllow(role, resources, permissions)` from acl.ts: normalises
resources to an array and delegates to `removePermissions`. -/
def removeAllow (st : Store) (role : Str) (resources : List Str)
    (permissions : Option (List Str)) : Store :=
  removePermissions st role resources permissions

/-- `_checkPermissions(roles, resource, permissions)` from acl.ts, with
explicit fuel bounding the recursive calls (the source recurses
unboundedly and crashes on cyclic hierarchies): union the granted
permissions of the roles on the resource; succeed on a wildcard; filter
the granted permissions out of the requested ones and succeed when none
remain; otherwise recurse on the union of the roles' parents with the
remaining permissions, failing when there are no parents. -/
def checkPermissions (st : Store) (fuel : Nat) (roles : List Str) (resource : Str)
    (permissions : List Str) : Option Bool :=
  if (str "*") ∈ bUnion st (allowsBucket resource) roles then some true
  else if (permissions.filter
      (fun p => decide (p ∉ bUnion st (allowsBucket resource) roles))).isEmpty then
    some true
  else if (bUnion st parentsB roles).isEmpty then some false
  else
    match fuel with
    | 0 => none
    | Nat.succ f =>
        checkPermissions st f (bUnion st parentsB roles) resource
          (permissions.filter (fun p => decide (p ∉ bUnion st (allowsBucket resource) roles)))

/-- `areAnyRolesAllowed(roles, resource, permissions)` from acl.ts:
false for an empty role list, otherwise `_checkPermissions`. -/
def areAnyRolesAllowed (st : Store) (fuel : Nat) (roles : List Str) (resource : Str)
    (permissions : List Str) : Option Bool :=
  if roles.length = 0 then some false
  else checkPermissions st fuel roles resource permissions

/-- `isAllowed(userId, resource, permissions)` from acl.ts: reads the
user's direct roles; with a nonempty role list delegates to
`areAnyRolesAllowed`, otherwise returns false without any permission
lookup. -/
def isAllowed (st : Store) (fuel : Nat) (userId resource : Str)
    (permissions : List Str) : Option Bool :=
  if (Store.get st usersB userId).length ≠ 0 then
    areAnyRolesAllowed st fuel (Store.get st usersB userId) resource permissions
  else some false

/-- `_resourcePermissions(roles, resource)` from acl.ts with explicit
fuel: the empty role list yields the empty set; otherwise the union of
the roles' grants on the resource, unioned with the recursive result on
the roles' parents when there are any. -/
def resourcePermissions (st : Store) (fuel : Nat) (roles : List Str)
    (resource : Str) : Option (List Str) :=
  if roles.isEmpty then some []
  else if (bUnion st parentsB roles).isEmpty then
    some (bUnion st (allowsBucket resource) roles)
  else
    match fuel with
    | 0 => none
    | Nat.succ f =>
        (resourcePermissions st f (bUnion st parentsB roles) resource).map
          (fun more => listUnion (bUnion st (allowsBucket resource) roles) more)

/-- `_allRoles(roleNames)` from acl.ts with explicit fuel: the role
names themselves when they have no parents, otherwise their union with
the recursive closure of the parents. -/
def allRoles (st : Store) (fuel : Nat) (roleNames : List Str) : Option (List Str) :=
  if (bUnion st parentsB roleNames).isEmpty then some roleNames
  else
    match fuel with
    | 0 => none
    | Nat.succ f =>
        (allRoles st f (bUnion st parentsB roleNames)).map
          (fun parentRoles => listUnion roleNames parentRoles)

/-- `_allUserRoles(userId)` from acl.ts: the full hierarchy closure of
the user's direct roles, the empty list when the user has none. -/
def allUserRoles (st : Store) (fuel : Nat) (userId : Str) : Option (List Str) :=
  if (userRoles st userId).isEmpty then some []
  else allRoles st fuel (userRoles st userId)

/-- Option-valued traversal used to assemble the resource-to-permissions
mapping of `allowedPermissions`. -/
def optionTraverse (f : Str → Option (Str × List Str)) : List Str → Option (List (Str × List Str))
  | [] => some []
  | r :: rs =>
      match f r, optionTraverse f rs with
      | some x, some xs => some (x :: xs)
      | _, _ => none

/-- The non-optimized body of `allowedPermissions(userId, resources)`
from acl.ts (taken when the backend lacks `unions`): reads the user's
direct roles and maps each requested resource to
`_resourcePermissions(roles, resource)`. -/
def allowedPermissionsMap (st : Store) (fuel : Nat) (userId : Str)
    (resources : List Str) : Option (List (Str × List Str)) :=
  optionTraverse
    (fun resource =>
      (resourcePermissions st fuel (userRoles st userId) resource).map
        (fun ps => (resource, ps)))
    resources

/-- `optimizedAllowedPermissions(userId, resources)` from acl.ts: the
full role closure of the user, then either an all-empty bucket mapping
(no roles) or the backend `unions` over the allows buckets of the
requested resources, with result keys remapped through
`keyFromAllowsBucket`. -/
def optimizedAllowedPermissionsMap (st : Store) (fuel : Nat) (userId : Str)
    (resources : List Str) : Option (List (Str × List Str)) :=
  (allUserRoles st fuel userId).map (fun roles =>
    let buckets := resources.map allowsBucket
    let response :=
      if roles.isEmpty then buckets.map (fun b => (b, ([] : List Str)))
      else unionsB st buckets roles
    response.map (fun pr => (keyFromAllowsBucket pr.1, pr.2)))

/-- JavaScript-valued user ids, as far as the entry guards of
`allowedPermissions` and `optimizedAllowedPermissions` can distinguish
them: strings, numbers, null and undefined. -/
inductive JsUserId : Type
  | jstr : Str → JsUserId
  | jnum : Int → JsUserId
  | jnull : JsUserId
  | jundef : JsUserId

/-- JavaScript truthiness of a user id: the empty string, the number 0,
null and undefined are falsy. -/
def JsUserId.falsy : JsUserId → Bool
  | .jstr s => s.isEmpty
  | .jnum n => decide (n = 0)
  | .jnull => true
  | .jundef => true

/-- The storage key a non-falsy user id is read under. -/
def JsUserId.key : JsUserId → Str
  | .jstr s => s
  | .jnum n => (toString n).data
  | .jnull => str "null"
  | .jundef => str "undefined"

/-- The runtime error raised by `return cb(null, {})` in strict mode:
`cb` is an undeclared identifier in acl.ts. -/
def cbRefError : Str := str "ReferenceError: cb is not defined"

/-- Entry of `allowedPermissions(userId, resources)` from acl.ts: a
falsy user id reaches `return cb(null, {})` where `cb` is undefined, so
the call throws before any backend access; otherwise the mapping is
computed (here along the non-optimized body). -/
def allowedPermissionsEntry (st : Store) (fuel : Nat) (uid : JsUserId)
    (resources : List Str) : Except Str (Option (List (Str × List Str))) :=
  if uid.falsy then Except.error cbRefError
  else Except.ok (allowedPermissionsMap st fuel uid.key resources)

/-- Entry of `optimizedAllowedPermissions(userId, resources)` from
acl.ts: the same falsy guard reaching the undefined `cb`, otherwise the
optimized mapping. -/
def optimizedAllowedPermissionsEntry (st : Store) (fuel : Nat) (uid : JsUserId)
    (resources : List Str) : Except Str (Option (List (Str × List Str))) :=
  if uid.falsy then Except.error cbRefError
  else Except.ok (optimizedAllowedPermissionsMap st fuel uid.key resources)

/-- Iterated parent frontier of a role list: level 0 is the list itself,
level k+1 is the backend union of the parents of level k. -/
def frontier (st : Store) (roles : List Str) : Nat → List Str
  | 0 => roles
  | Nat.succ k => bUnion st parentsB (frontier st roles k)

/-- Permissions granted on a resource at hierarchy level k of a role
list. -/
def grantedAt (st : Store) (resource : Str) (roles : List Str) (k : Nat) : List Str :=
  bUnion st (allowsBucket resource) (frontier st roles k)

/-- A permission is covered within the first k hierarchy levels: at some
level no deeper than k it is granted outright or a wildcard is
granted. -/
def coveredWithin (st : Store) (resource : Str) (roles : List Str) (k : Nat) (p : Str) : Prop :=
  ∃ j, j ≤ k ∧ (p ∈ grantedAt st resource roles j ∨ (str "*") ∈ grantedAt st resource roles j)

/-- Example state: user `u1` holds role `roleA`, `roleA` has parent
`roleB`, and `roleB` is granted `read` on resource `doc` (while `roleA`
has no direct grant). -/
def hierStore : Store :=
  addRoleParents
    (allow (addUserRoles emptyStore (str "u1") [str "roleA"])
      [str "roleB"] [str "doc"] [str "read"])
    (str "roleA") [str "roleB"]

/-- Example state: role `admin` is granted the wildcard on `doc`. -/
def starStore : Store :=
  allow emptyStore [str "admin"] [str "doc"] [str "*"]

/-- Example state: role `a` has parents `b` and `c`. -/
def parStore : Store :=
  addRoleParents emptyStore (str "a") [str "b", str "c"]

/-! Basic lemmas about the backend model. -/

lemma mem_bUnion {st : Store} {bucket : Str} {keys : List Str} {p : Str} :
    p ∈ bUnion st bucket keys ↔ ∃ k ∈ keys, p ∈ Store.get st bucket k := by
  simp [bUnion, Store.get]

lemma bUnion_nil (st : Store) (bucket : Str) : bUnion st bucket [] = [] := rfl

lemma mem_bUnion_mono {st : Store} {bucket : Str} {ks ks' : List Str}
    (h : ∀ x ∈ ks, x ∈ ks') {p : Str} (hp : p ∈ bUnion st bucket ks) :
    p ∈ bUnion st bucket ks' := by
  rcases mem_bUnion.mp hp with ⟨k, hk, hpk⟩
  exact mem_bUnion.mpr ⟨k, h k hk, hpk⟩

lemma mem_listUnion {a b : List Str} {x : Str} :
    x ∈ listUnion a b ↔ x ∈ a ∨ x ∈ b := by
  simp only [listUnion, List.mem_append, List.mem_filter, decide_eq_true_eq]
  tauto

lemma bUnion_listUnion (st : Store) (bucket : Str) (a b : List Str) (p : Str) :
    p ∈ bUnion st bucket (listUnion a b) ↔ p ∈ bUnion st bucket a ∨ p ∈ bUnion st bucket b := by
  simp only [mem_bUnion]
  constructor
  · rintro ⟨k, hk, hp⟩
    rcases mem_listUnion.mp hk with h | h
    · exact Or.inl ⟨k, h, hp⟩
    · exact Or.inr ⟨k, h, hp⟩
  · rintro (⟨k, hk, hp⟩ | ⟨k, hk, hp⟩)
    · exact ⟨k, mem_listUnion.mpr (Or.inl hk), hp⟩
    · exact ⟨k, mem_listUnion.mpr (Or.inr hk), hp⟩

lemma mem_foldl_insert (vals : List Str) (acc : List Str) (x : Str) :
    x ∈ vals.foldl (fun acc v => if v ∈ acc then acc else acc ++ [v]) acc ↔
      x ∈ acc ∨ x ∈ vals := by
  induction vals generalizing acc with
  | nil => simp
  | cons v vs ih =>
    simp only [List.foldl_cons]
    rw [ih]
    by_cases hv : v ∈ acc
    · simp only [if_pos hv, List.mem_cons]
      constructor
      · tauto
      · rintro (h | h | h)
        · exact Or.inl h
        · exact Or.inl (h ▸ hv)
        · exact Or.inr h
    · simp only [if_neg hv, List.mem_append, List.mem_singleton, List.mem_cons]
      tauto

lemma get_bAdd_of_ne {st : Store} {bucket key : Str} {vals : List Str} {b k : Str}
    (h : ¬ (b = bucket ∧ k = key)) :
    Store.get (bAdd st bucket key vals) b k = Store.get st b k := by
  simp only [bAdd, Store.get]
  rw [if_neg h]

lemma mem_get_bAdd_self {st : Store} {bucket key : Str} {vals : List Str} {x : Str} :
    x ∈ Store.get (bAdd st bucket key vals) bucket key ↔
      x ∈ Store.get st bucket key ∨ x ∈ vals := by
  simp only [bAdd, Store.get, and_self, if_true]
  exact mem_foldl_insert vals _ x

lemma get_bRemove_of_ne {st : Store} {bucket key : Str} {vals : List Str} {b k : Str}
    (h : ¬ (b = bucket ∧ k = key)) :
    Store.get (bRemove st bucket key vals) b k = Store.get st b k := by
  simp only [bRemove, Store.get]
  rw [if_neg h]

lemma get_bRemove_self {st : Store} {bucket key : Str} {vals : List Str} :
    Store.get (bRemove st bucket key vals) bucket key =
      (Store.get st bucket key).filter (fun v => decide (v ∉ vals)) := by
  simp [bRemove, Store.get]

lemma mem_get_bRemove_self {st : Store} {bucket key : Str} {vals : List Str} {x : Str} :
    x ∈ Store.get (bRemove st bucket key vals) bucket key ↔
      x ∈ Store.get st bucket key ∧ x ∉ vals := by
  rw [get_bRemove_self]
  simp

lemma get_bDel_self {st : Store} {bucket key : Str} :
    Store.get (bDel st bucket key) bucket key = [] := by
  simp [bDel, Store.get]

lemma get_bDel_of_ne {st : Store} {bucket key : Str} {b k : Str}
    (h : ¬ (b = bucket ∧ k = key)) :
    Store.get (bDel st bucket key) b k = Store.get st b k := by
  simp only [bDel, Store.get]
  rw [if_neg h]

/-! Bucket-name facts. -/

lemma allowsBucket_cons (r : Str) : allowsBucket r = 'a' :: (str "llows_" ++ r) := rfl

lemma allowsBucket_ne_usersB (r : Str) : allowsBucket r ≠ usersB := by
  intro h
  have h' : 'a' :: (str "llows_" ++ r) = 'u' :: str "sers" := h
  injection h' with h1 _
  exact absurd h1 (by decide)

lemma allowsBucket_ne_rolesB (r : Str) : allowsBucket r ≠ rolesB := by
  intro h
  have h' : 'a' :: (str "llows_" ++ r) = 'r' :: str "oles" := h
  injection h' with h1 _
  exact absurd h1 (by decide)

lemma allowsBucket_ne_parentsB (r : Str) : allowsBucket r ≠ parentsB := by
  intro h
  have h' : 'a' :: (str "llows_" ++ r) = 'p' :: str "arents" := h
  injection h' with h1 _
  exact absurd h1 (by decide)

lemma allowsBucket_ne_resourcesB (r : Str) : allowsBucket r ≠ resourcesB := by
  intro h
  have h' : 'a' :: (str "llows_" ++ r) = 'r' :: str "esources" := h
  injection h' with h1 _
  exact absurd h1 (by decide)

lemma allowsBucket_ne_metaB (r : Str) : allowsBucket r ≠ metaB := by
  intro h
  have h' : 'a' :: (str "llows_" ++ r) = 'm' :: str "eta" := h
  injection h' with h1 _
  exact absurd h1 (by decide)

lemma allowsBucket_inj {r s : Str} (h : allowsBucket r = allowsBucket s) : r = s := by
  simpa [allowsBucket] using h

lemma keyFromAllowsBucket_allowsBucket (r : Str) :
    keyFromAllowsBucket (allowsBucket r) = r := by
  unfold keyFromAllowsBucket allowsBucket
  have ht : List.take 7 (str "allows_" ++ r) = str "allows_" := List.take_left' (by decide)
  have hd : List.drop 7 (str "allows_" ++ r) = r := List.drop_left' (by decide)
  rw [ht, if_pos rfl, hd]

/-! Effect lemmas for the batched deletes of `removeRole` and the
second phase of `removePermissions`. -/

lemma get_foldl_bDel_of_ne {rs : List Str} {role b k : Str} (st : Store)
    (h : ∀ r ∈ rs, ¬ (b = allowsBucket r ∧ k = role)) :
    Store.get (rs.foldl (fun s resource => bDel s (allowsBucket resource) role) st) b k =
      Store.get st b k := by
  induction rs generalizing st with
  | nil => rfl
  | cons r rs ih =>
    simp only [List.foldl_cons]
    rw [ih _ (fun x hx => h x (List.mem_cons_of_mem r hx)),
      get_bDel_of_ne (h r (List.mem_cons_self r rs))]

lemma get_foldl_bDel_preserved_nil {rs : List Str} {role b k : Str} (st : Store)
    (h : Store.get st b k = []) :
    Store.get (rs.foldl (fun s resource => bDel s (allowsBucket resource) role) st) b k = [] := by
  induction rs generalizing st with
  | nil => exact h
  | cons r rs ih =>
    simp only [List.foldl_cons]
    apply ih
    by_cases hc : b = allowsBucket r ∧ k = role
    · obtain ⟨h1, h2⟩ := hc
      subst h1; subst h2
      exact get_bDel_self
    · rw [get_bDel_of_ne hc]
      exact h

lemma get_foldl_bDel_mem {rs : List Str} {role : Str} (st : Store) {r₀ : Str} (h : r₀ ∈ rs) :
    Store.get (rs.foldl (fun s resource => bDel s (allowsBucket resource) role) st)
      (allowsBucket r₀) role = [] := by
  induction rs generalizing st with
  | nil => cases h
  | cons r rs ih =>
    simp only [List.foldl_cons]
    rcases List.mem_cons.mp h with heq | hmem
    · subst heq
      exact get_foldl_bDel_preserved_nil _ get_bDel_self
    · exact ih _ hmem

lemma get_foldl_condRemove_of_ne (stR : Store) (role : Str) (rs : List Str) (b k : Str)
    (h : ¬ (b = resourcesB ∧ k = role)) : ∀ s : Store,
    Store.get (rs.foldl (fun s r =>
      if (Store.get stR (allowsBucket r) role).isEmpty then bRemove s resourcesB role [r]
      else s) s) b k = Store.get s b k := by
  induction rs with
  | nil => intro s; rfl
  | cons r rs ih =>
    intro s
    simp only [List.foldl_cons]
    rw [ih]
    by_cases hc : (Store.get stR (allowsBucket r) role).isEmpty
    · rw [if_pos hc, get_bRemove_of_ne h]
    · rw [if_neg hc]

/-! Frontier lemmas. -/

lemma frontier_zero (st : Store) (roles : List Str) : frontier st roles 0 = roles := rfl

lemma frontier_succ (st : Store) (roles : List Str) (k : Nat) :
    frontier st roles (k + 1) = bUnion st parentsB (frontier st roles k) := rfl

lemma frontier_one (st : Store) (roles : List Str) :
    frontier st roles 1 = bUnion st parentsB roles := rfl

lemma frontier_shift (st : Store) (roles : List Str) (k : Nat) :
    frontier st (bUnion st parentsB roles) k = frontier st roles (k + 1) := by
  induction k with
  | zero => rfl
  | succ k ih => simp only [frontier_succ, ih]

lemma frontier_mono {st : Store} {rs rs' : List Str} (h : ∀ x ∈ rs, x ∈ rs') :
    ∀ k, ∀ x ∈ frontier st rs k, x ∈ frontier st rs' k := by
  intro k
  induction k with
  | zero => exact h
  | succ k ih =>
    intro x hx
    simp only [frontier_succ] at hx ⊢
    exact mem_bUnion_mono ih hx

lemma frontier_eq_nil_mono {st : Store} {roles : List Str} {j k : Nat}
    (h : frontier st roles j = []) (hjk : j ≤ k) : frontier st roles k = [] := by
  induction k, hjk using Nat.le_induction with
  | base => exact h
  | succ k _ ih => simp only [frontier_succ, ih, bUnion_nil]

lemma grantedAt_shift (st : Store) (resource : Str) (roles : List Str) (k : Nat) :
    grantedAt st resource (bUnion st parentsB roles) k = grantedAt st resource roles (k + 1) := by
  simp only [grantedAt, frontier_shift]

lemma grantedAt_zero (st : Store) (resource : Str) (roles : List Str) :
    grantedAt st resource roles 0 = bUnion st (allowsBucket resource) roles := rfl

/-! Branch lemmas for `checkPermissions`. -/

lemma cp_wildcard {st : Store} {resource : Str} (fuel : Nat) (roles perms : List Str)
    (h : (str "*") ∈ bUnion st (allowsBucket resource) roles) :
    checkPermissions st fuel roles resource perms = some true := by
  unfold checkPermissions
  rw [if_pos h]

lemma cp_covered {st : Store} {resource : Str} (fuel : Nat) (roles perms : List Str)
    (hw : (str "*") ∉ bUnion st (allowsBucket resource) roles)
    (hrem : perms.filter (fun p => decide (p ∉ bUnion st (allowsBucket resource) roles)) = []) :
    checkPermissions st fuel roles resource perms = some true := by
  unfold checkPermissions
  rw [if_neg hw, if_pos (by simpa using hrem)]

lemma cp_exhausted {st : Store} {resource : Str} (fuel : Nat) (roles perms : List Str)
    (hw : (str "*") ∉ bUnion st (allowsBucket resource) roles)
    (hrem : perms.filter (fun p => decide (p ∉ bUnion st (allowsBucket resource) roles)) ≠ [])
    (hpar : bUnion st parentsB roles = []) :
    checkPermissions st fuel roles resource perms = some false := by
  unfold checkPermissions
  rw [if_neg hw, if_neg (by simpa [List.isEmpty_iff] using hrem),
    if_pos (by simp [hpar])]

lemma cp_zero {st : Store} {resource : Str} (roles perms : List Str)
    (hw : (str "*") ∉ bUnion st (allowsBucket resource) roles)
    (hrem : perms.filter (fun p => decide (p ∉ bUnion st (allowsBucket resource) roles)) ≠ [])
    (hpar : bUnion st parentsB roles ≠ []) :
    checkPermissions st 0 roles resource perms = none := by
  unfold checkPermissions
  rw [if_neg hw, if_neg (by simpa [List.isEmpty_iff] using hrem),
    if_neg (by simpa [List.isEmpty_iff] using hpar)]

lemma cp_succ {st : Store} {resource : Str} (f : Nat) (roles perms : List Str)
    (hw : (str "*") ∉ bUnion st (allowsBucket resource) roles)
    (hrem : perms.filter (fun p => decide (p ∉ bUnion st (allowsBucket resource) roles)) ≠ [])
    (hpar : bUnion st parentsB roles ≠ []) :
    checkPermissions st (f + 1) roles resource perms =
      checkPermissions st f (bUnion st parentsB roles) resource
        (perms.filter (fun p => decide (p ∉ bUnion st (allowsBucket resource) roles))) := by
  conv_lhs => unfold checkPermissions
  rw [if_neg hw, if_neg (by simpa [List.isEmpty_iff] using hrem),
    if_neg (by simpa [List.isEmpty_iff] using hpar)]

/-! Characterization of the allow check. -/

lemma mem_remaining_iff {st : Store} {resource : Str} {roles perms : List Str} {p : Str} :
    p ∈ perms.filter (fun q => decide (q ∉ bUnion st (allowsBucket resource) roles)) ↔
      p ∈ perms ∧ p ∉ bUnion st (allowsBucket resource) roles := by
  simp

lemma remaining_eq_nil_iff {st : Store} {resource : Str} {roles perms : List Str} :
    perms.filter (fun q => decide (q ∉ bUnion st (allowsBucket resource) roles)) = [] ↔
      ∀ p ∈ perms, p ∈ bUnion st (allowsBucket resource) roles := by
  simp [List.filter_eq_nil_iff]

lemma not_covered_zero {st : Store} {resource : Str} {roles : List Str}
    (hw : (str "*") ∉ bUnion st (allowsBucket resource) roles)
    {p : Str} (hp : p ∉ bUnion st (allowsBucket resource) roles) :
    ¬ coveredWithin st resource roles 0 p := by
  rintro ⟨j, hj, hor⟩
  have hj0 : j = 0 := Nat.le_zero.mp hj
  subst hj0
  rw [grantedAt_zero] at hor
  exact hor.elim hp hw

lemma remaining_nil_of_covered_zero {st : Store} {resource : Str} {roles perms : List Str}
    (hw : (str "*") ∉ bUnion st (allowsBucket resource) roles)
    (hcov : ∀ p ∈ perms, coveredWithin st resource roles 0 p) :
    perms.filter (fun q => decide (q ∉ bUnion st (allowsBucket resource) roles)) = [] := by
  rw [remaining_eq_nil_iff]
  intro p hp
  obtain ⟨j, hj, hor⟩ := hcov p hp
  have hj0 : j = 0 := Nat.le_zero.mp hj
  subst hj0
  rw [grantedAt_zero] at hor
  exact hor.resolve_right hw

lemma no_cover_of_fuel_zero {st : Store} {resource : Str} {roles perms : List Str}
    (hw : (str "*") ∉ bUnion st (allowsBucket resource) roles)
    (hrem : perms.filter (fun q => decide (q ∉ bUnion st (allowsBucket resource) roles)) ≠ []) :
    ¬ ∃ k, k ≤ 0 ∧ (∀ j, j < k → frontier st roles (j + 1) ≠ []) ∧
      ∀ p ∈ perms, coveredWithin st resource roles k p := by
  rintro ⟨k, hk, _, hcov⟩
  have hk0 : k = 0 := Nat.le_zero.mp hk
  subst hk0
  exact hrem (remaining_nil_of_covered_zero hw hcov)

lemma no_cover_of_stuck {st : Store} {resource : Str} {roles perms : List Str} (fuel : Nat)
    (hw : (str "*") ∉ bUnion st (allowsBucket resource) roles)
    (hrem : perms.filter (fun q => decide (q ∉ bUnion st (allowsBucket resource) roles)) ≠ [])
    (hpar : bUnion st parentsB roles = []) :
    ¬ ∃ k, k ≤ fuel ∧ (∀ j, j < k → frontier st roles (j + 1) ≠ []) ∧
      ∀ p ∈ perms, coveredWithin st resource roles k p := by
  rintro ⟨k, _, hfr, hcov⟩
  cases k with
  | zero => exact hrem (remaining_nil_of_covered_zero hw hcov)
  | succ k' => exact hfr 0 k'.succ_pos hpar

lemma cp_true_iff (st : Store) (resource : Str) :
    ∀ (fuel : Nat) (roles perms : List Str),
      checkPermissions st fuel roles resource perms = some true ↔
        ∃ k, k ≤ fuel ∧ (∀ j, j < k → frontier st roles (j + 1) ≠ []) ∧
          ∀ p ∈ perms, coveredWithin st resource roles k p := by
  intro fuel
  induction fuel with
  | zero =>
    intro roles perms
    by_cases hw : (str "*") ∈ bUnion st (allowsBucket resource) roles
    · rw [cp_wildcard 0 roles perms hw]
      constructor
      · intro _
        exact ⟨0, Nat.le_refl 0, fun j hj => absurd hj (Nat.not_lt_zero j),
          fun p _ => ⟨0, Nat.le_refl 0, Or.inr hw⟩⟩
      · intro _; rfl
    · by_cases hrem :
        perms.filter (fun q => decide (q ∉ bUnion st (allowsBucket resource) roles)) = []
      · rw [cp_covered 0 roles perms hw hrem]
        constructor
        · intro _
          exact ⟨0, Nat.le_refl 0, fun j hj => absurd hj (Nat.not_lt_zero j),
            fun p hp => ⟨0, Nat.le_refl 0, Or.inl (remaining_eq_nil_iff.mp hrem p hp)⟩⟩
        · intro _; rfl
      · by_cases hpar : bUnion st parentsB roles = []
        · rw [cp_exhausted 0 roles perms hw hrem hpar]
          constructor
          · intro h; simp at h
          · intro hex; exact ((no_cover_of_stuck 0 hw hrem hpar) hex).elim
        · rw [cp_zero roles perms hw hrem hpar]
          constructor
          · intro h; cases h
          · intro hex; exact ((no_cover_of_fuel_zero hw hrem) hex).elim
  | succ f ih =>
    intro roles perms
    by_cases hw : (str "*") ∈ bUnion st (allowsBucket resource) roles
    · rw [cp_wildcard (f + 1) roles perms hw]
      constructor
      · intro _
        exact ⟨0, Nat.zero_le _, fun j hj => absurd hj (Nat.not_lt_zero j),
          fun p _ => ⟨0, Nat.le_refl 0, Or.inr hw⟩⟩
      · intro _; rfl
    · by_cases hrem :
        perms.filter (fun q => decide (q ∉ bUnion st (allowsBucket resource) roles)) = []
      · rw [cp_covered (f + 1) roles perms hw hrem]
        constructor
        · intro _
          exact ⟨0, Nat.zero_le _, fun j hj => absurd hj (Nat.not_lt_zero j),
            fun p hp => ⟨0, Nat.le_refl 0, Or.inl (remaining_eq_nil_iff.mp hrem p hp)⟩⟩
        · intro _; rfl
      · by_cases hpar : bUnion st parentsB roles = []
        · rw [cp_exhausted (f + 1) roles perms hw hrem hpar]
          constructor
          · intro h; simp at h
          · intro hex; exact ((no_cover_of_stuck (f + 1) hw hrem hpar) hex).elim
        · rw [cp_succ f roles perms hw hrem hpar, ih]
          constructor
          · rintro ⟨k, hk, hfr, hcov⟩
            refine ⟨k + 1, Nat.succ_le_succ hk, ?_, ?_⟩
            · intro j hj
              cases j with
              | zero => exact hpar
              | succ j' =>
                have hf' := hfr j' (Nat.lt_of_succ_lt_succ hj)
                rw [frontier_shift] at hf'
                exact hf'
            · intro p hp
              by_cases hp0 : p ∈ bUnion st (allowsBucket resource) roles
              · exact ⟨0, Nat.zero_le _, Or.inl hp0⟩
              · obtain ⟨j, hj, hor⟩ := hcov p (mem_remaining_iff.mpr ⟨hp, hp0⟩)
                rw [grantedAt_shift] at hor
                exact ⟨j + 1, Nat.succ_le_succ hj, hor⟩
          · rintro ⟨k, hk, hfr, hcov⟩
            cases k with
            | zero => exact absurd (remaining_nil_of_covered_zero hw hcov) hrem
            | succ k' =>
              refine ⟨k', Nat.le_of_succ_le_succ hk, ?_, ?_⟩
              · intro j hj
                have hf' := hfr (j + 1) (Nat.succ_lt_succ hj)
                rw [← frontier_shift] at hf'
                exact hf'
              · intro p hpr
                have hp' := mem_remaining_iff.mp hpr
                obtain ⟨j, hj, hor⟩ := hcov p hp'.1
                cases j with
                | zero =>
                  rw [grantedAt_zero] at hor
                  exact (hor.elim hp'.2 hw).elim
                | succ j' =>
                  rw [← grantedAt_shift] at hor
                  exact ⟨j', Nat.le_of_succ_le_succ hj, hor⟩

lemma cp_false_exhausted (st : Store) (resource : Str) :
    ∀ (fuel : Nat) (roles perms : List Str),
      checkPermissions st fuel roles resource perms = some false →
        ∃ k, k ≤ fuel ∧ frontier st roles (k + 1) = [] ∧
          ∃ p ∈ perms, ¬ coveredWithin st resource roles k p := by
  intro fuel
  induction fuel with
  | zero =>
    intro roles perms h
    by_cases hw : (str "*") ∈ bUnion st (allowsBucket resource) roles
    · rw [cp_wildcard 0 roles perms hw] at h; simp at h
    · by_cases hrem :
        perms.filter (fun q => decide (q ∉ bUnion st (allowsBucket resource) roles)) = []
      · rw [cp_covered 0 roles perms hw hrem] at h; simp at h
      · by_cases hpar : bUnion st parentsB roles = []
        · obtain ⟨p₀, hp₀⟩ := List.exists_mem_of_ne_nil _ hrem
          have hp₀' := mem_remaining_iff.mp hp₀
          exact ⟨0, Nat.le_refl 0, hpar, p₀, hp₀'.1, not_covered_zero hw hp₀'.2⟩
        · rw [cp_zero roles perms hw hrem hpar] at h; cases h
  | succ f ih =>
    intro roles perms h
    by_cases hw : (str "*") ∈ bUnion st (allowsBucket resource) roles
    · rw [cp_wildcard (f + 1) roles perms hw] at h; simp at h
    · by_cases hrem :
        perms.filter (fun q => decide (q ∉ bUnion st (allowsBucket resource) roles)) = []
      · rw [cp_covered (f + 1) roles perms hw hrem] at h; simp at h
      · by_cases hpar : bUnion st parentsB roles = []
        · obtain ⟨p₀, hp₀⟩ := List.exists_mem_of_ne_nil _ hrem
          have hp₀' := mem_remaining_iff.mp hp₀
          exact ⟨0, Nat.zero_le _, hpar, p₀, hp₀'.1, not_covered_zero hw hp₀'.2⟩
        · rw [cp_succ f roles perms hw hrem hpar] at h
          obtain ⟨k, hk, hnil, p₀, hp₀r, hncov⟩ := ih _ _ h
          have hp₀' := mem_remaining_iff.mp hp₀r
          refine ⟨k + 1, Nat.succ_le_succ hk, ?_, p₀, hp₀'.1, ?_⟩
          · rw [frontier_shift] at hnil
            exact hnil
          · rintro ⟨j, hj, hor⟩
            cases j with
            | zero =>
              rw [grantedAt_zero] at hor
              exact hor.elim hp₀'.2 hw
            | succ j' =>
              apply hncov
              rw [← grantedAt_shift] at hor
              exact ⟨j', Nat.le_of_succ_le_succ hj, hor⟩

/-! Unfolding lemmas for the closure and permission-union recursions. -/

lemma get_bAdd_self_eq {st : Store} {bucket key : Str} {vals : List Str} :
    Store.get (bAdd st bucket key vals) bucket key =
      vals.foldl (fun acc v => if v ∈ acc then acc else acc ++ [v]) (Store.get st bucket key) := by
  simp [bAdd, Store.get]

lemma allRoles_stop {st : Store} (fuel : Nat) (roleNames : List Str)
    (h : bUnion st parentsB roleNames = []) :
    allRoles st fuel roleNames = some roleNames := by
  unfold allRoles
  rw [if_pos (by simp [h])]

lemma allRoles_succ {st : Store} (f : Nat) (roleNames : List Str)
    (h : bUnion st parentsB roleNames ≠ []) :
    allRoles st (f + 1) roleNames =
      (allRoles st f (bUnion st parentsB roleNames)).map
        (fun parentRoles => listUnion roleNames parentRoles) := by
  conv_lhs => unfold allRoles
  rw [if_neg (by simpa [List.isEmpty_iff] using h)]

lemma allRoles_zero {st : Store} (roleNames : List Str)
    (h : bUnion st parentsB roleNames ≠ []) :
    allRoles st 0 roleNames = none := by
  unfold allRoles
  rw [if_neg (by simpa [List.isEmpty_iff] using h)]

lemma rp_nilRoles {st : Store} (fuel : Nat) (resource : Str) :
    resourcePermissions st fuel [] resource = some [] := by
  unfold resourcePermissions
  rw [if_pos (show ([] : List Str).isEmpty = true from rfl)]

lemma rp_stop {st : Store} (fuel : Nat) (roles : List Str) (resource : Str)
    (hr : roles ≠ []) (h : bUnion st parentsB roles = []) :
    resourcePermissions st fuel roles resource =
      some (bUnion st (allowsBucket resource) roles) := by
  unfold resourcePermissions
  rw [if_neg (by simpa [List.isEmpty_iff] using hr), if_pos (by simp [h])]

lemma rp_succ {st : Store} (f : Nat) (roles : List Str) (resource : Str)
    (hr : roles ≠ []) (h : bUnion st parentsB roles ≠ []) :
    resourcePermissions st (f + 1) roles resource =
      (resourcePermissions st f (bUnion st parentsB roles) resource).map
        (fun more => listUnion (bUnion st (allowsBucket resource) roles) more) := by
  conv_lhs => unfold resourcePermissions
  rw [if_neg (by simpa [List.isEmpty_iff] using hr),
    if_neg (by simpa [List.isEmpty_iff] using h)]

lemma allRoles_ne_nil {st : Store} {fuel : Nat} {roles cl : List Str}
    (h : allRoles st fuel roles = some cl) (hr : roles ≠ []) : cl ≠ [] := by
  by_cases hpar : bUnion st parentsB roles = []
  · rw [allRoles_stop fuel roles hpar] at h
    injection h with h'
    exact h' ▸ hr
  · cases fuel with
    | zero => rw [allRoles_zero roles hpar] at h; cases h
    | succ f =>
      rw [allRoles_succ f roles hpar] at h
      obtain ⟨pcl, _, hcl⟩ := Option.map_eq_some'.mp h
      subst hcl
      simp [listUnion, hr]

lemma rp_of_allRoles (st : Store) (resource : Str) :
    ∀ (fuel : Nat) (roles cl : List Str), allRoles st fuel roles = some cl →
      ∃ ps, resourcePermissions st fuel roles resource = some ps ∧
        ∀ p, p ∈ ps ↔ p ∈ bUnion st (allowsBucket resource) cl := by
  intro fuel
  induction fuel with
  | zero =>
    intro roles cl h
    by_cases hr : roles = []
    · subst hr
      rw [allRoles_stop 0 [] (bUnion_nil st parentsB)] at h
      injection h with h'
      subst h'
      exact ⟨[], rp_nilRoles 0 resource, by simp [bUnion_nil]⟩
    · by_cases hpar : bUnion st parentsB roles = []
      · rw [allRoles_stop 0 roles hpar] at h
        injection h with h'
        subst h'
        exact ⟨bUnion st (allowsBucket resource) roles, rp_stop 0 roles resource hr hpar,
          fun p => Iff.rfl⟩
      · rw [allRoles_zero roles hpar] at h
        cases h
  | succ f ih =>
    intro roles cl h
    by_cases hr : roles = []
    · subst hr
      rw [allRoles_stop (f + 1) [] (bUnion_nil st parentsB)] at h
      injection h with h'
      subst h'
      exact ⟨[], rp_nilRoles (f + 1) resource, by simp [bUnion_nil]⟩
    · by_cases hpar : bUnion st parentsB roles = []
      · rw [allRoles_stop (f + 1) roles hpar] at h
        injection h with h'
        subst h'
        exact ⟨bUnion st (allowsBucket resource) roles,
          rp_stop (f + 1) roles resource hr hpar, fun p => Iff.rfl⟩
      · rw [allRoles_succ f roles hpar] at h
        obtain ⟨pcl, hpcl, hcl⟩ := Option.map_eq_some'.mp h
        subst hcl
        obtain ⟨pms, hpms, hiff⟩ := ih (bUnion st parentsB roles) pcl hpcl
        refine ⟨listUnion (bUnion st (allowsBucket resource) roles) pms, ?_, ?_⟩
        · rw [rp_succ f roles resource hr hpar, hpms]
          rfl
        · intro p
          rw [mem_listUnion, bUnion_listUnion, hiff p]

lemma traverse_forall2 (st : Store) (fuel : Nat) (roles cl : List Str)
    (hall : allRoles st fuel roles = some cl) :
    ∀ (rs : List Str) (m : List (Str × List Str)),
      optionTraverse (fun resource =>
        (resourcePermissions st fuel roles resource).map (fun ps => (resource, ps))) rs =
          some m →
      List.Forall₂ (fun a b => a.1 = b.1 ∧ ∀ p, p ∈ a.2 ↔ p ∈ b.2) m
        (rs.map (fun r =>
          (keyFromAllowsBucket (allowsBucket r), bUnion st (allowsBucket r) cl))) := by
  intro rs
  induction rs with
  | nil =>
    intro m hm
    injection hm with h'
    subst h'
    exact List.Forall₂.nil
  | cons r rs ih =>
    intro m hm
    obtain ⟨ps, hps, hiff⟩ := rp_of_allRoles st r fuel roles cl hall
    unfold optionTraverse at hm
    rw [hps] at hm
    simp only [Option.map_some'] at hm
    cases htr : optionTraverse (fun resource =>
        (resourcePermissions st fuel roles resource).map (fun ps => (resource, ps))) rs with
    | none =>
      rw [htr] at hm
      exact Option.noConfusion hm
    | some ms =>
      rw [htr] at hm
      injection hm with h'
      subst h'
      exact List.Forall₂.cons ⟨(keyFromAllowsBucket_allowsBucket r).symm, hiff⟩ (ih ms htr)

lemma optimized_eq_closure_map (st : Store) (fuel : Nat) (userId : Str) (resources : List Str)
    {cl : List Str} (hcl : allUserRoles st fuel userId = some cl) :
    optimizedAllowedPermissionsMap st fuel userId resources =
      some (resources.map (fun r =>
        (keyFromAllowsBucket (allowsBucket r), bUnion st (allowsBucket r) cl))) := by
  unfold optimizedAllowedPermissionsMap
  rw [hcl]
  simp only [Option.map_some']
  by_cases hclE : cl.isEmpty
  · have hnil : cl = [] := List.isEmpty_iff.mp hclE
    subst hnil
    rw [if_pos hclE, List.map_map, List.map_map]
    rfl
  · rw [if_neg hclE]
    unfold unionsB
    rw [List.map_map, List.map_map]
    rfl

lemma allRoles_of_allUserRoles {st : Store} {fuel : Nat} {userId : Str} {cl : List Str}
    (hcl : allUserRoles st fuel userId = some cl) :
    allRoles st fuel (userRoles st userId) = some cl := by
  unfold allUserRoles at hcl
  by_cases hur : (userRoles st userId).isEmpty
  · rw [if_pos hur] at hcl
    injection hcl with h'
    subst h'
    rw [List.isEmpty_iff.mp hur]
    exact allRoles_stop fuel [] (bUnion_nil st parentsB)
  · rw [if_neg hur] at hcl
    exact hcl

/-! Claim theorems. -/

/-- Claim C2: whenever the union of the permissions granted to the current
role set on a resource contains the wildcard, `_checkPermissions`
succeeds immediately for every requested permission set — including
permissions never granted — for every fuel bound (so in particular with
no recursion allowed at all, showing neither the remaining permissions
nor the parent roles are consulted). -/
theorem checkPermissions_wildcard_dominates (st : Store) (fuel : Nat)
    (roles perms : List Str) (resource : Str)
    (h : (str "*") ∈ bUnion st (allowsBucket resource) roles) :
    checkPermissions st fuel roles resource perms = some true :=
  cp_wildcard fuel roles perms h

/-- Witness for C2: role `admin` holds the wildcard on `doc`, and the
never-granted permission `fly` is allowed with zero fuel. -/
theorem checkPermissions_wildcard_dominates_witness :
    checkPermissions starStore 0 [str "admin"] (str "doc") [str "fly"] = some true :=
  checkPermissions_wildcard_dominates starStore 0 [str "admin"] [str "fly"] (str "doc")
    (by decide)

/-- Claim C7: `isAllowed` for a user whose `users[userId]` role set is empty
returns false, for every store contents elsewhere (in particular for
arbitrary allows buckets, which is how the embedding expresses that no
permission lookup takes place) and for every fuel bound. -/
theorem isAllowed_no_roles_false (st : Store) (fuel : Nat) (userId resource : Str)
    (perms : List Str) (h : Store.get st usersB userId = []) :
    isAllowed st fuel userId resource perms = some false := by
  unfold isAllowed
  rw [h]
  simp

/-- Witness for C7: on the wildcard store, the unknown user `nobody` is
denied even the permission the store grants to `admin`. -/
theorem isAllowed_no_roles_false_witness :
    isAllowed starStore 3 (str "nobody") (str "doc") [str "fly"] = some false :=
  isAllowed_no_roles_false starStore 3 (str "nobody") (str "doc") [str "fly"] (by decide)

/-- Claim C8: `removeRoleParents` with no parents argument deletes the whole
`parents[role]` set; with a parents argument it removes exactly those
edges (an element survives iff it was there and is not among the removed
ones), and the parent sets of other roles are untouched. -/
theorem removeRoleParents_semantics (st : Store) (role : Str) :
    Store.get (removeRoleParents st role none) parentsB role = []
    ∧ (∀ (ps : List Str) (q : Str),
        q ∈ Store.get (removeRoleParents st role (some ps)) parentsB role ↔
          q ∈ Store.get st parentsB role ∧ q ∉ ps)
    ∧ (∀ (ps : Option (List Str)) (role' : Str), role' ≠ role →
        Store.get (removeRoleParents st role ps) parentsB role' =
          Store.get st parentsB role') := by
  refine ⟨?_, ?_, ?_⟩
  · exact get_bDel_self
  · intro ps q
    exact mem_get_bRemove_self
  · intro ps role' hne
    cases ps with
    | none => exact get_bDel_of_ne (fun hc => hne hc.2)
    | some ps => exact get_bRemove_of_ne (fun hc => hne hc.2)

/-- Witness for C8: role `a` has parents `b` and `c`; removing all
parents clears the set, removing only `b` keeps `c`, and role `z` is
untouched. -/
theorem removeRoleParents_semantics_witness :
    Store.get (removeRoleParents parStore (str "a") none) parentsB (str "a") = []
    ∧ (str "c") ∈ Store.get (removeRoleParents parStore (str "a") (some [str "b"]))
        parentsB (str "a")
    ∧ Store.get (removeRoleParents parStore (str "a") (some [str "b"])) parentsB (str "z") =
        Store.get parStore parentsB (str "z") :=
  ⟨(removeRoleParents_semantics parStore (str "a")).1,
   ((removeRoleParents_semantics parStore (str "a")).2.1 [str "b"] (str "c")).mpr
     ⟨by decide, by decide⟩,
   (removeRoleParents_semantics parStore (str "a")).2.2 (some [str "b"]) (str "z") (by decide)⟩

/-- Claim C9: `hasRole` is true exactly when the role is in the user's
directly assigned `users[userId]` set; a role reachable only through
parent edges of a directly held role (and not directly assigned) still
yields false, so inherited permissions do not make `hasRole` true. -/
theorem hasRole_direct_only (st : Store) (userId rolename : Str) :
    (hasRole st userId rolename = true ↔ rolename ∈ Store.get st usersB userId)
    ∧ (∀ a, a ∈ Store.get st usersB userId → rolename ∈ Store.get st parentsB a →
        rolename ∉ Store.get st usersB userId → hasRole st userId rolename = false) := by
  constructor
  · simp [hasRole, userRoles]
  · intro a _ _ hnot
    simp [hasRole, userRoles, hnot]

/-- Witness for C9: user `u1` inherits from `roleB` through `roleA` yet
`hasRole` is false for `roleB`. -/
theorem hasRole_direct_only_witness :
    hasRole hierStore (str "u1") (str "roleB") = false :=
  (hasRole_direct_only hierStore (str "u1") (str "roleB")).2 (str "roleA")
    (by decide) (by decide) (by decide)

/-- Claim C10: for a falsy user id (empty string, 0, null, undefined) both
`allowedPermissions` and `optimizedAllowedPermissions` raise the
ReferenceError of the undefined identifier `cb` — for every store, every
fuel and every resources argument, so no backend read can influence the
outcome. -/
theorem falsy_userId_error (st : Store) (fuel : Nat) (uid : JsUserId)
    (resources : List Str) (h : uid.falsy = true) :
    allowedPermissionsEntry st fuel uid resources = Except.error cbRefError
    ∧ optimizedAllowedPermissionsEntry st fuel uid resources = Except.error cbRefError := by
  constructor
  · unfold allowedPermissionsEntry
    rw [if_pos h]
  · unfold optimizedAllowedPermissionsEntry
    rw [if_pos h]

/-- Witness for C10: the empty-string user id on a populated store. -/
theorem falsy_userId_error_witness :
    allowedPermissionsEntry hierStore 2 (JsUserId.jstr []) [str "doc"] =
      Except.error cbRefError
    ∧ optimizedAllowedPermissionsEntry hierStore 2 (JsUserId.jstr []) [str "doc"] =
      Except.error cbRefError :=
  falsy_userId_error hierStore 2 (JsUserId.jstr []) [str "doc"] (by decide)

/-- Claim C4: granting a single permission on a resource to a role and then
revoking that same permission through `removeAllow` leaves the
`allows[resource][role]` set without that permission — for every
starting state, so in particular when the role had no other grant of it
— and when the role started with no grant at all on the resource, the
set is left empty (the role has no permission on the resource). -/
theorem allow_removeAllow_roundtrip (st : Store) (role resource p : Str) :
    p ∉ Store.get (removeAllow (allow st [role] [resource] [p]) role [resource] (some [p]))
        (allowsBucket resource) role
    ∧ (Store.get st (allowsBucket resource) role = [] →
        Store.get (removeAllow (allow st [role] [resource] [p]) role [resource] (some [p]))
          (allowsBucket resource) role = []) := by
  have h4 := get_foldl_condRemove_of_ne
    (removePermissionsPhase1 (allow st [role] [resource] [p]) role [resource] (some [p]))
    role [resource] (allowsBucket resource) role
    (fun hc => allowsBucket_ne_resourcesB resource hc.1)
    (removePermissionsPhase1 (allow st [role] [resource] [p]) role [resource] (some [p]))
  have hph1 : Store.get
      (removePermissionsPhase1 (allow st [role] [resource] [p]) role [resource] (some [p]))
      (allowsBucket resource) role =
      Store.get (bRemove (allow st [role] [resource] [p]) (allowsBucket resource) role [p])
        (allowsBucket resource) role := rfl
  constructor
  · intro hmem
    have hmem' : p ∈ Store.get
        (removePermissionsPhase1 (allow st [role] [resource] [p]) role [resource] (some [p]))
        (allowsBucket resource) role := by
      rw [← h4]
      exact hmem
    rw [hph1] at hmem'
    exact (mem_get_bRemove_self.mp hmem').2 (List.mem_singleton_self p)
  · intro h
    have h1 : Store.get (bAdd st metaB (str "roles") [role])
        (allowsBucket resource) role = [] := by
      rw [get_bAdd_of_ne (fun hc => allowsBucket_ne_metaB resource hc.1)]
      exact h
    have h2 : Store.get (allow st [role] [resource] [p]) (allowsBucket resource) role = [p] := by
      show Store.get
        (bAdd (bAdd (bAdd st metaB (str "roles") [role]) (allowsBucket resource) role [p])
          resourcesB role [resource]) (allowsBucket resource) role = [p]
      rw [get_bAdd_of_ne (fun hc => allowsBucket_ne_resourcesB resource hc.1),
        get_bAdd_self_eq, h1]
      simp
    have h3 : Store.get
        (removePermissionsPhase1 (allow st [role] [resource] [p]) role [resource] (some [p]))
        (allowsBucket resource) role = [] := by
      rw [hph1, get_bRemove_self, h2]
      simp
    exact h4.trans h3

/-- Witness for C4: the round trip on the empty store for role `x`,
resource `docs`, permission `edit` empties the grant set. -/
theorem allow_removeAllow_roundtrip_witness :
    Store.get
      (removeAllow (allow emptyStore [str "x"] [str "docs"] [str "edit"])
        (str "x") [str "docs"] (some [str "edit"]))
      (allowsBucket (str "docs")) (str "x") = [] :=
  (allow_removeAllow_roundtrip emptyStore (str "x") (str "docs") (str "edit")).2 (by decide)

/-- Claim C5: when every permission the role holds on the resource is among
the revoked ones, phase 2 of `removePermissions` finds the re-queried
allows set empty and removes the resource from `resources[role]`, so the
resource is absent from the role's resource set afterwards. -/
theorem removePermissions_prunes_resource (st : Store) (role resource : Str)
    (perms : List Str)
    (h : ∀ q ∈ Store.get st (allowsBucket resource) role, q ∈ perms) :
    resource ∉ Store.get (removePermissions st role [resource] (some perms)) resourcesB role := by
  have h1 : Store.get (removePermissionsPhase1 st role [resource] (some perms))
      (allowsBucket resource) role = [] := by
    show Store.get (bRemove st (allowsBucket resource) role perms)
      (allowsBucket resource) role = []
    rw [get_bRemove_self, List.filter_eq_nil_iff]
    intro a ha
    simp [h a ha]
  intro hmem
  have hfold : Store.get (removePermissions st role [resource] (some perms)) resourcesB role =
      Store.get (bRemove (removePermissionsPhase1 st role [resource] (some perms))
        resourcesB role [resource]) resourcesB role := by
    show Store.get
      (if (Store.get (removePermissionsPhase1 st role [resource] (some perms))
          (allowsBucket resource) role).isEmpty then
        bRemove (removePermissionsPhase1 st role [resource] (some perms))
          resourcesB role [resource]
      else removePermissionsPhase1 st role [resource] (some perms)) resourcesB role = _
    rw [h1]
    rfl
  rw [hfold] at hmem
  exact (mem_get_bRemove_self.mp hmem).2 (List.mem_singleton_self resource)

/-- Witness for C5: revoking `read` on `doc` from `roleB`, whose only
grant it was, prunes `doc` from `resources[roleB]`. -/
theorem removePermissions_prunes_resource_witness :
    (str "doc") ∉ Store.get
      (removePermissions hierStore (str "roleB") [str "doc"] (some [str "read"]))
      resourcesB (str "roleB") :=
  removePermissions_prunes_resource hierStore (str "roleB") (str "doc") [str "read"]
    (by decide)

/-- Claim C3: `removeRole` empties the role's entry in every allows bucket of
a resource recorded in `resources[role]`, clears `resources[role]`,
`parents[role]` and the reverse user mapping `roles[role]`, removes the
role from `meta.roles`, and leaves every user's `users[userId]` set
exactly as it was. -/
theorem removeRole_effects (st : Store) (role : Str) :
    (∀ resource ∈ Store.get st resourcesB role,
      Store.get (removeRole st role) (allowsBucket resource) role = [])
    ∧ Store.get (removeRole st role) resourcesB role = []
    ∧ Store.get (removeRole st role) parentsB role = []
    ∧ Store.get (removeRole st role) rolesB role = []
    ∧ role ∉ Store.get (removeRole st role) metaB (str "roles")
    ∧ ∀ userId, Store.get (removeRole st role) usersB userId = Store.get st usersB userId := by
  have he : removeRole st role =
      bRemove (bDel (bDel (bDel
        ((Store.get st resourcesB role).foldl
          (fun s resource => bDel s (allowsBucket resource) role) st)
        resourcesB role) parentsB role) rolesB role) metaB (str "roles") [role] := rfl
  refine ⟨?_, ?_, ?_, ?_, ?_, ?_⟩
  · intro resource hres
    rw [he, get_bRemove_of_ne (fun hc => allowsBucket_ne_metaB resource hc.1),
      get_bDel_of_ne (fun hc => allowsBucket_ne_rolesB resource hc.1),
      get_bDel_of_ne (fun hc => allowsBucket_ne_parentsB resource hc.1),
      get_bDel_of_ne (fun hc => allowsBucket_ne_resourcesB resource hc.1)]
    exact get_foldl_bDel_mem st hres
  · rw [he, get_bRemove_of_ne (fun hc => (by decide : resourcesB ≠ metaB) hc.1),
      get_bDel_of_ne (fun hc => (by decide : resourcesB ≠ rolesB) hc.1),
      get_bDel_of_ne (fun hc => (by decide : resourcesB ≠ parentsB) hc.1)]
    exact get_bDel_self
  · rw [he, get_bRemove_of_ne (fun hc => (by decide : parentsB ≠ metaB) hc.1),
      get_bDel_of_ne (fun hc => (by decide : parentsB ≠ rolesB) hc.1)]
    exact get_bDel_self
  · rw [he, get_bRemove_of_ne (fun hc => (by decide : rolesB ≠ metaB) hc.1)]
    exact get_bDel_self
  · rw [he]
    intro hmem
    exact (mem_get_bRemove_self.mp hmem).2 (List.mem_singleton_self role)
  · intro userId
    rw [he, get_bRemove_of_ne (fun hc => (by decide : usersB ≠ metaB) hc.1),
      get_bDel_of_ne (fun hc => (by decide : usersB ≠ rolesB) hc.1),
      get_bDel_of_ne (fun hc => (by decide : usersB ≠ parentsB) hc.1),
      get_bDel_of_ne (fun hc => (by decide : usersB ≠ resourcesB) hc.1)]
    exact get_foldl_bDel_of_ne st (fun r _ hc => allowsBucket_ne_usersB r hc.1.symm)

/-- Witness for C3: deleting `roleB` empties its grant bucket on `doc`
while user `u1` still lists role `roleA`. -/
theorem removeRole_effects_witness :
    Store.get (removeRole hierStore (str "roleB")) (allowsBucket (str "doc")) (str "roleB") = []
    ∧ Store.get (removeRole hierStore (str "roleB")) usersB (str "u1") =
        Store.get hierStore usersB (str "u1") :=
  ⟨(removeRole_effects hierStore (str "roleB")).1 (str "doc") (by decide),
   (removeRole_effects hierStore (str "roleB")).2.2.2.2.2 (str "u1")⟩

/-- Claim C1: on a hierarchy whose reachable part terminates within the fuel
bound (every acyclic hierarchy admits such a bound), (i) a user directly
assigned role `a` is allowed a permission `p` on a resource whenever
some role `b` transitively reachable from `a` along parents edges (in
`k` steps) holds a direct grant of `p` — whether or not `a` has any
direct grant; (ii) the allow check succeeds exactly when every
originally required permission is covered (granted outright or by a
wildcard) at some reachable ancestor level; and (iii) it returns false
only when the hierarchy is exhausted (some level has an empty parent
frontier) with an unmet permission remaining. -/
theorem isAllowed_hierarchy_characterization (st : Store) (fuel : Nat) :
    (∀ (userId a b resource p : Str) (k : Nat),
      k ≤ fuel →
      a ∈ Store.get st usersB userId →
      b ∈ frontier st [a] k →
      p ∈ Store.get st (allowsBucket resource) b →
      isAllowed st fuel userId resource [p] = some true)
    ∧ (∀ (roles perms : List Str) (resource : Str),
      checkPermissions st fuel roles resource perms = some true ↔
        ∃ k, k ≤ fuel ∧ (∀ j, j < k → frontier st roles (j + 1) ≠ []) ∧
          ∀ p ∈ perms, coveredWithin st resource roles k p)
    ∧ (∀ (roles perms : List Str) (resource : Str),
      checkPermissions st fuel roles resource perms = some false →
        ∃ k, k ≤ fuel ∧ frontier st roles (k + 1) = [] ∧
          ∃ p ∈ perms, ¬ coveredWithin st resource roles k p) := by
  refine ⟨?_, fun roles perms resource => cp_true_iff st resource fuel roles perms,
    fun roles perms resource => cp_false_exhausted st resource fuel roles perms⟩
  intro userId a b resource p k hk ha hb hp
  have hmem : ∀ x ∈ [a], x ∈ Store.get st usersB userId := by
    intro x hx
    rw [List.mem_singleton] at hx
    subst hx
    exact ha
  have hb' : b ∈ frontier st (Store.get st usersB userId) k := frontier_mono hmem k b hb
  have hfk : frontier st (Store.get st usersB userId) k ≠ [] := by
    intro hnil
    rw [hnil] at hb'
    cases hb'
  have hlen : (Store.get st usersB userId).length ≠ 0 := by
    intro h0
    have hnil : Store.get st usersB userId = [] := List.length_eq_zero.mp h0
    rw [hnil] at ha
    cases ha
  unfold isAllowed
  rw [if_pos hlen]
  unfold areAnyRolesAllowed
  rw [if_neg hlen, cp_true_iff st resource fuel]
  refine ⟨k, hk, ?_, ?_⟩
  · intro j hj hnil
    exact hfk (frontier_eq_nil_mono hnil hj)
  · intro q hq
    rw [List.mem_singleton] at hq
    subst hq
    exact ⟨k, Nat.le_refl k, Or.inl (mem_bUnion.mpr ⟨b, hb', hp⟩)⟩

/-- Witness for C1: user `u1` holds `roleA`, whose parent `roleB` is
granted `read` on `doc`; the inheritance branch of the theorem yields
the allow, with `roleB` reached in one parents step. -/
theorem isAllowed_hierarchy_characterization_witness :
    isAllowed hierStore 1 (str "u1") (str "doc") [str "read"] = some true :=
  (isAllowed_hierarchy_characterization hierStore 1).1 (str "u1") (str "roleA")
    (str "roleB") (str "doc") (str "read") 1 (by decide) (by decide) (by decide) (by decide)

/-- Claim C6: whenever both the non-optimized `allowedPermissions` path and
`optimizedAllowedPermissions` complete within the fuel bound (which
every acyclic hierarchy allows), they return the same
resource-to-permission-set mapping: the entries are pairwise keyed by
the same resource — the optimized keys coming back through
`keyFromAllowsBucket` — and carry membership-equal permission sets. -/
theorem optimizedAllowedPermissions_equiv (st : Store) (fuel : Nat) (userId : Str)
    (resources : List Str) (m₁ m₂ : List (Str × List Str))
    (h₁ : allowedPermissionsMap st fuel userId resources = some m₁)
    (h₂ : optimizedAllowedPermissionsMap st fuel userId resources = some m₂) :
    List.Forall₂ (fun a b => a.1 = b.1 ∧ ∀ p, p ∈ a.2 ↔ p ∈ b.2) m₁ m₂ := by
  have h₂' := h₂
  unfold optimizedAllowedPermissionsMap at h₂'
  obtain ⟨cl, hcl, -⟩ := Option.map_eq_some'.mp h₂'
  rw [optimized_eq_closure_map st fuel userId resources hcl] at h₂
  injection h₂ with hm₂
  subst hm₂
  have hall := allRoles_of_allUserRoles hcl
  unfold allowedPermissionsMap at h₁
  exact traverse_forall2 st fuel (userRoles st userId) cl hall resources m₁ h₁

/-- Witness for C6: both paths compute the mapping `doc ↦ {read}` for
user `u1` on the example hierarchy. -/
theorem optimizedAllowedPermissions_equiv_witness :
    List.Forall₂ (fun a b => a.1 = b.1 ∧ ∀ p, p ∈ a.2 ↔ p ∈ b.2)
      [((str "doc"), [str "read"])] [((str "doc"), [str "read"])] :=
  optimizedAllowedPermissions_equiv hierStore 1 (str "u1") [str "doc"]
    [((str "doc"), [str "read"])] [((str "doc"), [str "read"])] (by decide) (by decide)

end NodeAcl
